import Mathlib

/-!
Verification of the maharani-json-extractor knowledge-file builder
(src/scripts/build_heygen_knowledge_env.py) against its specification.

The script is a sequential fetch-and-transform pipeline: it loads a source
configuration, fetches text for web URLs (managed scrape service with a
direct-HTTP fallback) and for Apify actors (synchronous run endpoint),
normalizes whitespace, chunks long text into 800-character windows, formats
one line per chunk, and finally filters, re-normalizes and deduplicates the
lines before writing them out.

Strings are modelled as lists of characters (`Str`).  Whitespace follows
the ASCII subset of Python str.split semantics (space, tab, newline,
carriage return, vertical tab, form feed); every text manipulated by the
claims is ASCII.  Network and HTML-parsing effects are modelled by oracle
functions supplied as parameters; the decision logic around them (key
checks, fallback order, truthiness tests, chunking, formatting,
aggregation) is translated directly from the source.
-/

abbrev Str := List Char

/-- ASCII whitespace characters recognized by Python str.split / str.strip. -/
def isPySpace (c : Char) : Bool :=
  c = ' ' || c = '\t' || c = '\n' || c = '\r' || c = '\x0b' || c = '\x0c'

/-- Worker for `pySplit`: walks the string accumulating the current token
(in reverse) and emits maximal runs of non-whitespace characters. -/
def splitAux : Str → Str → List Str
  | [], cur => if cur = [] then [] else [cur.reverse]
  | c :: s, cur =>
    if isPySpace c then
      (if cur = [] then splitAux s [] else cur.reverse :: splitAux s [])
    else splitAux s (c :: cur)

/-- Python text.split() with no separator: maximal runs of non-whitespace. -/
def pySplit (s : Str) : List Str := splitAux s []

/-- Python " ".join: interspersed single spaces. -/
def joinWithSpace : List Str → Str
  | [] => []
  | [t] => t
  | t :: t2 :: ts => t ++ ' ' :: joinWithSpace (t2 :: ts)

/-- Python text.strip(): remove leading and trailing whitespace. -/
def pyStrip (s : Str) : Str :=
  ((s.dropWhile isPySpace).reverse.dropWhile isPySpace).reverse

/-- clean_text from the script: " ".join(text.split()).strip(). -/
def clean_text (s : Str) : Str := pyStrip (joinWithSpace (pySplit s))

/-- Concatenation of a list of strings (used to state chunk reassembly). -/
def joinAll : List Str → Str
  | [] => []
  | t :: ts => t ++ joinAll ts

/-- Worker for `chunks`, with explicit fuel so that the definition is
structural and computes by kernel reduction; fuel at least the length of
the string makes the zero-fuel case unreachable. -/
def chunksAux : Nat → Str → List Str
  | _, [] => []
  | 0, s => [s]
  | fuel + 1, s => s.take 800 :: chunksAux fuel (s.drop 800)

/-- The chunking loop: for i in range(0, len(text), 800): text[i:i+800]. -/
def chunks (s : Str) : List Str := chunksAux s.length s

/-- Worker for dedupe_keep_order, carrying the `seen` set (as a list). -/
def dedupeAux : List Str → List Str → List Str
  | _, [] => []
  | seen, x :: xs =>
    if x ∈ seen then dedupeAux seen xs else x :: dedupeAux (x :: seen) xs

/-- dedupe_keep_order from the script: drop repeated items, keeping the
first occurrence of each distinct item. -/
def dedupe_keep_order (items : List Str) : List Str := dedupeAux [] items

/-- Index of the first occurrence of a string in a list (length of the
list when absent); used to state the order-preservation claim. -/
def firstIdx (a : Str) : List Str → Nat
  | [] => 0
  | x :: xs => if x = a then 0 else firstIdx a xs + 1

/-- The guard of the final comprehension in main: "if x and x.strip()". -/
def keep_line (x : Str) : Bool := !(x.isEmpty) && !((pyStrip x).isEmpty)

/-- Lines 249-250 of the script (the aggregation step of main):
all_lines = [clean_text(x) for x in all_lines if x and x.strip()];
all_lines = dedupe_keep_order(all_lines). -/
def aggregate (ls : List Str) : List Str :=
  dedupe_keep_order ((ls.filter keep_line).map clean_text)

/-- The characters of "SRC:WEB". -/
def srcWebTag : Str := ['S', 'R', 'C', ':', 'W', 'E', 'B']

/-- The characters of "SRC:APIFY". -/
def srcApifyTag : Str := ['S', 'R', 'C', ':', 'A', 'P', 'I', 'F', 'Y']

/-- The fixed prefix of a web line for a given URL: "SRC:WEB {url} | ". -/
def webPre (url : Str) : Str := srcWebTag ++ ' ' :: url ++ [' ', '|', ' ']

/-- The f-string of line 160: "SRC:WEB {url} | {chunk}". -/
def fmtWeb (url chunk : Str) : Str := webPre url ++ chunk

/-- The fixed prefix of an apify line: "SRC:APIFY {src} | ". -/
def apifyPre (src : Str) : Str := srcApifyTag ++ ' ' :: src ++ [' ', '|', ' ']

/-- The f-string of line 229: "SRC:APIFY {src} | {chunk}". -/
def fmtApify (src chunk : Str) : Str := apifyPre src ++ chunk

/-! ## JSON-like values and Python-dict records -/

/-- JSON-like Python values (as produced by yaml.safe_load / response.json()). -/
inductive Json where
  | str (s : Str)
  | num (n : Int)
  | bool (b : Bool)
  | null
  | arr (xs : List Json)
  | obj (kvs : List (Str × Json))

/-- A Python dict record: ordered key/value pairs, keys distinct. -/
abbrev JsonRec := List (Str × Json)

/-- First binding of a key in a record (Python dict lookup). -/
def dictLookup (k : Str) : JsonRec → Option Json
  | [] => none
  | (k₂, v) :: r => if k₂ = k then some v else dictLookup k r

/-- Python item.get(key): the stored value, or None when the key is absent. -/
def dictGet (item : JsonRec) (k : Str) : Json := (dictLookup k item).getD Json.null

/-- Python truthiness (bool()) of a JSON-like value. -/
def jTruthy : Json → Bool
  | .str s => !s.isEmpty
  | .num n => n ≠ 0
  | .bool b => b
  | .null => false
  | .arr xs => !xs.isEmpty
  | .obj kvs => !kvs.isEmpty

/-- Python x or y on JSON-like values: y when x is falsy, else x. -/
def pyOr (x y : Json) : Json := if jTruthy x then x else y

/-- Python str() applied to a value, given a rendering f for non-string
values: on a string it is the string itself. -/
def strOf (f : Json → Str) : Json → Str
  | .str s => s
  | v => f v

/-- The priority field names of extract_apify_text_fields, in order:
caption, text, summary, title, description, alt, content. -/
def priorityKeys : List Str :=
  [['c','a','p','t','i','o','n'], ['t','e','x','t'],
   ['s','u','m','m','a','r','y'], ['t','i','t','l','e'],
   ['d','e','s','c','r','i','p','t','i','o','n'], ['a','l','t'],
   ['c','o','n','t','e','n','t']]

/-- The source-identifier keys of line 225, in order: url, link, permalink. -/
def srcKeys : List Str :=
  [['u','r','l'], ['l','i','n','k'],
   ['p','e','r','m','a','l','i','n','k']]

/-- The first loop of extract_apify_text_fields: for each priority key,
append val.strip() when the value is a string with truthy val.strip(). -/
def priorityCands (item : JsonRec) : List Str :=
  priorityKeys.foldl
    (fun acc k =>
      match dictGet item k with
      | .str v => if (pyStrip v).isEmpty then acc else acc ++ [pyStrip v]
      | _ => acc)
    []

/-- The fallback loop of extract_apify_text_fields: every string value of
the record longer than 20 characters, in record order. -/
def fallbackCands (item : JsonRec) : List Str :=
  item.foldl
    (fun acc kv =>
      match kv.2 with
      | .str v => if 20 < v.length then acc ++ [v] else acc
      | _ => acc)
    []

/-- extract_apify_text_fields from the script (lines 199-209). -/
def extract_apify_text_fields (item : JsonRec) : Str :=
  let c₁ := priorityCands item
  let cands := if c₁.isEmpty then fallbackCands item else c₁
  if cands.isEmpty then [] else clean_text (joinWithSpace cands)

/-- Line 225 of the script:
src = it.get("url") or it.get("link") or it.get("permalink") or actor. -/
def apifySrc (item : JsonRec) (actor : Json) : Json :=
  pyOr (dictGet item ['u','r','l'])
    (pyOr (dictGet item ['l','i','n','k'])
      (pyOr (dictGet item ['p','e','r','m','a','l','i','n','k']) actor))

/-- Lines 223-229 of the script, for one dataset record: extract the text,
pick the source identifier, and emit one formatted line per 800-character
chunk; a record with empty extracted text emits nothing.  The parameter f
renders non-string values the way the Python f-string would. -/
def apifyItemLines (f : Json → Str) (actor : Json) (item : JsonRec) : List Str :=
  let txt := extract_apify_text_fields item
  if txt.isEmpty then []
  else (chunks txt).map (fmtApify (strOf f (apifySrc item actor)))

/-! ## Environment-placeholder resolution -/

/-- First character class of the placeholder name: [A-Za-z_]. -/
def isEnvNameStart (c : Char) : Bool := ('A' ≤ c && c ≤ 'Z') || ('a' ≤ c && c ≤ 'z') || c = '_'

/-- Later character class of the placeholder name: [A-Za-z0-9_]. -/
def isEnvNameChar (c : Char) : Bool := isEnvNameStart c || ('0' ≤ c && c ≤ '9')

/-- Attempt to parse "{ENV:NAME}" at the head of the string (the caller has
already consumed the dollar sign); on success return the name and the rest
of the string after the closing brace.  The name is the maximal run of name
characters, exactly as the regex matches it. -/
def matchPlaceholder : Str → Option (Str × Str)
  | '{' :: 'E' :: 'N' :: 'V' :: ':' :: c :: rest =>
    if isEnvNameStart c then
      match rest.dropWhile isEnvNameChar with
      | '}' :: tail => some (c :: rest.takeWhile isEnvNameChar, tail)
      | _ => none
    else none
  | _ => none

theorem matchPlaceholder_length {s n a : Str} (h : matchPlaceholder s = some (n, a)) :
    a.length < s.length := by
  unfold matchPlaceholder at h
  split at h
  next c rest =>
    split at h
    · split at h
      next heq =>
        have hdw : (rest.dropWhile isEnvNameChar).length ≤ rest.length :=
          (List.dropWhile_sublist isEnvNameChar).length_le
        rw [heq] at hdw
        simp only [Option.some.injEq, Prod.mk.injEq] at h
        obtain ⟨-, rfl⟩ := h
        simp only [List.length_cons] at hdw ⊢
        omega
      next => exact absurd h (by simp)
    · exact absurd h (by simp)
  next => exact absurd h (by simp)

/-- The re.sub of resolve_env_placeholders: scan left to right, replacing
each ${ENV:NAME} placeholder by env NAME (the empty string models a
missing variable, as os.getenv(var, "") does). -/
def substEnv (env : Str → Str) : Str → Str
  | [] => []
  | '$' :: rest =>
    match h : matchPlaceholder rest with
    | some (name, tail) => env name ++ substEnv env tail
    | none => '$' :: substEnv env rest
  | c :: rest => c :: substEnv env rest
termination_by s => s.length
decreasing_by
  · exact Nat.lt_succ_of_lt (matchPlaceholder_length h)
  · simp
  · simp

/-- resolve_env_placeholders from the script (lines 64-77): map the
substitution over every string value, descending through dicts and lists;
all other leaves are returned unchanged. -/
def resolve_env_placeholders (env : Str → Str) : Json → Json
  | .str s => .str (substEnv env s)
  | .num n => .num n
  | .bool b => .bool b
  | .null => .null
  | .arr xs => .arr (xs.attach.map fun x => resolve_env_placeholders env x.1)
  | .obj kvs => .obj (kvs.attach.map fun kv => (kv.1.1, resolve_env_placeholders env kv.1.2))
termination_by j => sizeOf j
decreasing_by
  · exact Nat.lt_trans (List.sizeOf_lt_of_mem x.2) (by simp [Json.arr.sizeOf_spec])
  · have h1 : sizeOf kv.1.2 < sizeOf kv.1 := by
      obtain ⟨⟨k, v⟩, hm⟩ := kv
      simp only [Prod.mk.sizeOf_spec]
      omega
    exact Nat.lt_trans (Nat.lt_trans h1 (List.sizeOf_lt_of_mem kv.2)) (by simp [Json.obj.sizeOf_spec])

/-- The structural skeleton of a JSON-like value: every string leaf is
blanked, everything else (constructors, dict keys and their order, list
lengths and order, numeric/boolean/null leaves) is kept. -/
def jsonShape : Json → Json
  | .str _ => .str []
  | .num n => .num n
  | .bool b => .bool b
  | .null => .null
  | .arr xs => .arr (xs.attach.map fun x => jsonShape x.1)
  | .obj kvs => .obj (kvs.attach.map fun kv => (kv.1.1, jsonShape kv.1.2))
termination_by j => sizeOf j
decreasing_by
  · exact Nat.lt_trans (List.sizeOf_lt_of_mem x.2) (by simp [Json.arr.sizeOf_spec])
  · have h1 : sizeOf kv.1.2 < sizeOf kv.1 := by
      obtain ⟨⟨k, v⟩, hm⟩ := kv
      simp only [Prod.mk.sizeOf_spec]
      omega
    exact Nat.lt_trans (Nat.lt_trans h1 (List.sizeOf_lt_of_mem kv.2)) (by simp [Json.obj.sizeOf_spec])

/-! ## Pipeline: environment, oracles, fetchers, main -/

/-- The process environment of the script: the two optional credentials
(the empty string models an unset variable, as os.getenv(name, "") does)
and the variable table used by placeholder resolution. -/
structure Env where
  firecrawlKey : Str
  apifyToken : Str
  envVars : Str → Str

/-- firecrawl_enabled(): bool(FIRECRAWL_API_KEY). -/
def firecrawl_enabled (e : Env) : Bool := !e.firecrawlKey.isEmpty

/-- apify_enabled(): bool(APIFY_TOKEN). -/
def apify_enabled (e : Env) : Bool := !e.apifyToken.isEmpty

/-- The remote endpoints a web source can reach. -/
inductive Call where
  | scrape (url : Str)
  | crawl (url : Str)
  | direct (url : Str)
deriving DecidableEq

/-- Oracle for the network: the text yielded by the scrape endpoint (none
when the request fails, times out, or yields no usable text), the text
yielded by the crawl fallback, and the HTML body of the direct GET (none
when all retried attempts raise). -/
structure NetOracle where
  scrape : Str → Option Str
  crawl : Str → Option Str
  direct : Str → Option Str

/-- firecrawl_scrape from the script (lines 100-137), with its HTTP calls
abstracted by the oracle: when the key is unset it returns None at once and
performs no call; otherwise it tries the scrape endpoint, then the crawl
endpoint, and returns None when both fail.  The first component records the
endpoints invoked, in order. -/
def firecrawl_scrape (e : Env) (o : NetOracle) (url : Str) : List Call × Option Str :=
  if !firecrawl_enabled e then ([], none)
  else
    match o.scrape url with
    | some t => ([.scrape url], some t)
    | none =>
      match o.crawl url with
      | some t => ([.scrape url, .crawl url], some t)
      | none => ([.scrape url, .crawl url], none)

/-- extract_text_from_html (lines 38-42): clean_text of the visible text of
the parsed HTML; the BeautifulSoup extraction (script/style/noscript
removal and get_text) is abstracted by the parameter vis. -/
def extract_text_from_html (vis : Str → Str) (html : Str) : Str := clean_text (vis html)

/-- The body of the per-URL loop of build_lines_from_web (lines 143-154):
firecrawl first; when it yields nothing truthy, direct fetch plus HTML
extraction; the trace of endpoint calls is returned alongside the text. -/
def fetchWebOne (e : Env) (o : NetOracle) (vis : Str → Str) (url : Str) :
    List Call × Option Str :=
  let (calls, fc) := firecrawl_scrape e o url
  if fc.getD [] ≠ [] then (calls, fc)
  else
    match o.direct url with
    | some html => (calls ++ [.direct url], some (extract_text_from_html vis html))
    | none => (calls ++ [.direct url], none)

/-- Lines 156-160: normalize the fetched text and emit one formatted line
per 800-character chunk. -/
def webLinesFor (url text : Str) : List Str :=
  (chunks (clean_text text)).map (fmtWeb url)

/-- build_lines_from_web (lines 140-161), lines only: URLs whose fetch
fails, or yields falsy text, contribute nothing. -/
def build_lines_from_web (e : Env) (o : NetOracle) (vis : Str → Str) (urls : List Str) :
    List Str :=
  urls.foldl
    (fun acc url =>
      match (fetchWebOne e o vis url).2 with
      | some t => if t.isEmpty then acc else acc ++ webLinesFor url t
      | none => acc)
    []

/-- Oracle for the actor platform: the dataset records of a synchronous
actor run (none when the retried request raises). -/
structure ApifyOracle where
  run : Json → Json → Option (List JsonRec)

/-- apify_run_sync (lines 168-196): an unset token short-circuits to an
empty record list before any request; otherwise the oracle supplies the
parsed dataset records. -/
def apify_run_sync (e : Env) (o : ApifyOracle) (actor : Json) (inp : Json) :
    Option (List JsonRec) :=
  if !apify_enabled e then some [] else o.run actor inp

/-- build_lines_from_apify (lines 212-232): per configured actor, resolve
the input placeholders, skip entries without a truthy actor id, run the
actor (a raised error skips the entry), and emit the lines of every
record. -/
def build_lines_from_apify (e : Env) (o : ApifyOracle) (f : Json → Str)
    (cfgs : List JsonRec) : List Str :=
  cfgs.foldl
    (fun acc cfg =>
      let actor := dictGet cfg ['a','c','t','o','r']
      let actorInput :=
        resolve_env_placeholders e.envVars ((dictLookup ['i','n','p','u','t'] cfg).getD (.obj []))
      if !jTruthy actor then acc
      else
        match apify_run_sync e o actor actorInput with
        | none => acc
        | some items => acc ++ items.foldl (fun a it => a ++ apifyItemLines f actor it) [])
    []

/-- The parsed configuration document: both top-level keys optional
(setdefault supplies the missing ones). -/
structure RawCfg where
  web : Option (List Str)
  apify : Option (List JsonRec)

/-- The configuration after read_sources: both keys present. -/
structure SourceConfig where
  web : List Str
  apify : List JsonRec

/-- read_sources (lines 55-61).  The filesystem and YAML parser are
abstracted: srcExists models SRC.exists(), and parsed models the outcome of
yaml.safe_load on the document text (error = the parser raises; ok none =
an empty document, which safe_load returns as None).  A missing file yields
the empty configuration; a parse error propagates, since the script does
not catch it; an empty document is replaced by {} and then defaulted. -/
def read_sources (srcExists : Bool) (parsed : Except Str (Option RawCfg)) :
    Except Str SourceConfig :=
  if !srcExists then .ok ⟨[], []⟩
  else
    match parsed with
    | .error e => .error e
    | .ok none => .ok ⟨[], []⟩
    | .ok (some d) => .ok ⟨d.web.getD [], d.apify.getD []⟩

/-- main (lines 235-254): load the sources, build web lines when there are
web URLs, build apify lines only when there are actor entries and the token
is set, then filter, re-normalize and deduplicate.  The result is the exit
code together with the lines written to the output file; a propagated
configuration parse error aborts the run instead. -/
def mainRun (e : Env) (o : NetOracle) (vis : Str → Str) (ao : ApifyOracle)
    (f : Json → Str) (srcExists : Bool) (parsed : Except Str (Option RawCfg)) :
    Except Str (Nat × List Str) :=
  match read_sources srcExists parsed with
  | .error err => .error err
  | .ok cfg =>
    let webL := if cfg.web.isEmpty then [] else build_lines_from_web e o vis cfg.web
    let apifyL :=
      if !cfg.apify.isEmpty && apify_enabled e then build_lines_from_apify e ao f cfg.apify
      else []
    .ok (0, aggregate (webL ++ apifyL))

/-! ## Lemmas about splitting, joining and stripping -/

/-- Good token lists: what pySplit produces — nonempty and whitespace-free. -/
def goodToks (toks : List Str) : Prop :=
  ∀ t ∈ toks, t ≠ [] ∧ ∀ c ∈ t, isPySpace c = false

theorem splitAux_nil (cur : Str) :
    splitAux [] cur = if cur = [] then [] else [cur.reverse] := rfl

theorem splitAux_cons (c : Char) (s cur : Str) :
    splitAux (c :: s) cur =
      if isPySpace c then
        (if cur = [] then splitAux s [] else cur.reverse :: splitAux s [])
      else splitAux s (c :: cur) := rfl

theorem splitAux_tokens (s : Str) : ∀ (cur : Str), (∀ c ∈ cur, isPySpace c = false) →
    ∀ t ∈ splitAux s cur, t ≠ [] ∧ ∀ c ∈ t, isPySpace c = false := by
  induction s with
  | nil =>
    intro cur hcur t ht
    rw [splitAux_nil] at ht
    split at ht
    · simp at ht
    · rename_i hne
      simp only [List.mem_singleton] at ht
      subst ht
      refine ⟨by simpa using hne, fun c hc => hcur c (List.mem_reverse.mp hc)⟩
  | cons c s ih =>
    intro cur hcur t ht
    rw [splitAux_cons] at ht
    split at ht
    · split at ht
      · exact ih [] (by simp) t ht
      · rename_i hsp hne
        rcases List.mem_cons.mp ht with rfl | htl
        · exact ⟨by simpa using hne, fun c2 hc2 => hcur c2 (List.mem_reverse.mp hc2)⟩
        · exact ih [] (by simp) t htl
    · rename_i hsp
      refine ih (c :: cur) ?_ t ht
      intro c2 hc2
      rcases List.mem_cons.mp hc2 with rfl | hc2
      · simpa using hsp
      · exact hcur c2 hc2

/-- pySplit yields good tokens. -/
theorem pySplit_tokens (s : Str) : goodToks (pySplit s) :=
  splitAux_tokens s [] (by simp)

/-- Consuming a whitespace-free block pushes it onto the current token. -/
theorem splitAux_consume : ∀ (t : Str), (∀ c ∈ t, isPySpace c = false) →
    ∀ (s cur : Str), splitAux (t ++ s) cur = splitAux s (t.reverse ++ cur) := by
  intro t
  induction t with
  | nil => intro _ s cur; simp
  | cons c t ih =>
    intro h s cur
    have hc : isPySpace c = false := h c (by simp)
    rw [List.cons_append, splitAux_cons, if_neg (by simp [hc]),
      ih (fun c2 hc2 => h c2 (by simp [hc2])) s (c :: cur)]
    simp

/-- A fully-whitespace string only flushes the current token. -/
theorem splitAux_allspace : ∀ (w : Str), (∀ c ∈ w, isPySpace c = true) →
    ∀ (cur : Str), splitAux w cur = splitAux [] cur := by
  intro w
  induction w with
  | nil => intro _ _; rfl
  | cons c w ih =>
    intro h cur
    have hc : isPySpace c = true := h c (by simp)
    have hw : ∀ c2 ∈ w, isPySpace c2 = true := fun c2 hc2 => h c2 (by simp [hc2])
    rw [splitAux_cons, if_pos hc]
    rw [ih hw []]
    by_cases hcur : cur = []
    · simp [hcur, splitAux_nil]
    · simp [hcur, splitAux_nil]

/-- Trailing whitespace does not change the tokens. -/
theorem splitAux_trailspace (w : Str) (hw : ∀ c ∈ w, isPySpace c = true) :
    ∀ (xs cur : Str), splitAux (xs ++ w) cur = splitAux xs cur := by
  intro xs
  induction xs with
  | nil =>
    intro cur
    rw [List.nil_append, splitAux_allspace w hw cur]
  | cons c xs ih =>
    intro cur
    rw [List.cons_append, splitAux_cons, splitAux_cons]
    by_cases hc : isPySpace c
    · rw [if_pos hc, if_pos hc]
      by_cases hcur : cur = [] <;> simp [hcur, ih]
    · rw [if_neg hc, if_neg hc, ih]

/-- Splitting across an explicit separating space. -/
theorem splitAux_space_append (b : Str) : ∀ (xs cur : Str),
    splitAux (xs ++ ' ' :: b) cur = splitAux (xs ++ [' ']) cur ++ splitAux b [] := by
  intro xs
  induction xs with
  | nil =>
    intro cur
    simp only [List.nil_append]
    rw [splitAux_cons, splitAux_cons]
    have hsp : isPySpace ' ' = true := by decide
    rw [if_pos hsp, if_pos hsp]
    by_cases hcur : cur = [] <;> simp [hcur, splitAux_nil]
  | cons c xs ih =>
    intro cur
    rw [List.cons_append, List.cons_append, splitAux_cons, splitAux_cons]
    by_cases hc : isPySpace c
    · rw [if_pos hc, if_pos hc]
      by_cases hcur : cur = [] <;> simp [hcur, ih]
    · rw [if_neg hc, if_neg hc, ih]

/-- pySplit distributes over a separating space. -/
theorem pySplit_space_append (a b : Str) :
    pySplit (a ++ ' ' :: b) = pySplit a ++ pySplit b := by
  unfold pySplit
  rw [splitAux_space_append b a [],
    splitAux_trailspace [' '] (by intro c hc; simp at hc; subst hc; decide) a []]

/-- A nonempty whitespace-free string is a single token. -/
theorem pySplit_single (t : Str) (h : ∀ c ∈ t, isPySpace c = false) (hne : t ≠ []) :
    pySplit t = [t] := by
  unfold pySplit
  have := splitAux_consume t h [] []
  rw [List.append_nil] at this
  rw [this, List.append_nil, splitAux_nil, if_neg (by simpa using hne), List.reverse_reverse]

theorem joinWithSpace_nil : joinWithSpace [] = [] := rfl

theorem joinWithSpace_singleton (t : Str) : joinWithSpace [t] = t := rfl

theorem joinWithSpace_cons₂ (t t2 : Str) (ts : List Str) :
    joinWithSpace (t :: t2 :: ts) = t ++ ' ' :: joinWithSpace (t2 :: ts) := rfl

/-- pySplit of a joined list splits blockwise. -/
theorem pySplit_join_flatten : ∀ (l : List Str),
    pySplit (joinWithSpace l) = (l.map pySplit).flatten := by
  intro l
  induction l with
  | nil => rfl
  | cons t ts ih =>
    cases ts with
    | nil => simp [joinWithSpace_singleton]
    | cons t2 ts2 =>
      rw [joinWithSpace_cons₂, pySplit_space_append, ih]
      simp

theorem flatten_map_singleton : ∀ (l : List Str), (l.map fun x => [x]).flatten = l
  | [] => rfl
  | t :: ts => by simp [flatten_map_singleton ts]

/-- Splitting a join of good tokens recovers the tokens. -/
theorem pySplit_join (toks : List Str) (h : goodToks toks) :
    pySplit (joinWithSpace toks) = toks := by
  rw [pySplit_join_flatten]
  have heach : toks.map pySplit = toks.map (fun t => [t]) := by
    refine List.map_congr_left fun t ht => ?_
    exact pySplit_single t (h t ht).2 (h t ht).1
  rw [heach, flatten_map_singleton]

/-- Every character of a join is a space or a token character. -/
theorem joinWithSpace_chars : ∀ (toks : List Str) (c : Char),
    c ∈ joinWithSpace toks → c = ' ' ∨ ∃ t ∈ toks, c ∈ t := by
  intro toks
  induction toks with
  | nil => intro c hc; simp [joinWithSpace_nil] at hc
  | cons t ts ih =>
    cases ts with
    | nil =>
      intro c hc
      rw [joinWithSpace_singleton] at hc
      exact Or.inr ⟨t, by simp, hc⟩
    | cons t2 ts2 =>
      intro c hc
      rw [joinWithSpace_cons₂] at hc
      rcases List.mem_append.mp hc with hc | hc
      · exact Or.inr ⟨t, by simp, hc⟩
      · rcases List.mem_cons.mp hc with rfl | hc
        · exact Or.inl rfl
        · rcases ih c hc with h | ⟨t3, ht3, hct⟩
          · exact Or.inl h
          · exact Or.inr ⟨t3, by simp [ht3], hct⟩

/-- A join of good tokens starting with a nonempty token is nonempty. -/
theorem joinWithSpace_ne_nil : ∀ (t : Str) (ts : List Str), t ≠ [] →
    joinWithSpace (t :: ts) ≠ [] := by
  intro t ts ht
  cases ts with
  | nil => simpa [joinWithSpace_singleton] using ht
  | cons t2 ts2 =>
    rw [joinWithSpace_cons₂]
    simp [ht]

theorem joinWithSpace_head? (t : Str) (ts : List Str) (ht : t ≠ []) :
    (joinWithSpace (t :: ts)).head? = t.head? := by
  obtain ⟨c, t2, rfl⟩ := List.exists_cons_of_ne_nil ht
  cases ts with
  | nil => rfl
  | cons u us => rw [joinWithSpace_cons₂, List.cons_append]; rfl

theorem joinWithSpace_getLast? : ∀ (toks : List Str), goodToks toks → toks ≠ [] →
    ∃ c, (joinWithSpace toks).getLast? = some c ∧ isPySpace c = false := by
  intro toks
  induction toks with
  | nil => intro _ h; exact absurd rfl h
  | cons t ts ih =>
    intro hg _
    cases ts with
    | nil =>
      have ht : t ≠ [] := (hg t (by simp)).1
      have hrn : t.reverse ≠ [] := fun h0 => ht (by simpa using congrArg List.reverse h0)
      obtain ⟨c, r, hrev⟩ := List.exists_cons_of_ne_nil hrn
      refine ⟨c, ?_, ?_⟩
      · rw [joinWithSpace_singleton, ← List.head?_reverse, hrev]; rfl
      · exact (hg t (by simp)).2 c (by rw [← List.mem_reverse, hrev]; simp)
    | cons t2 ts2 =>
      have hg2 : goodToks (t2 :: ts2) := fun u hu => hg u (by simp [hu])
      obtain ⟨c, hc, hcs⟩ := ih hg2 (by simp)
      refine ⟨c, ?_, hcs⟩
      rw [joinWithSpace_cons₂]
      have hne : joinWithSpace (t2 :: ts2) ≠ [] :=
        joinWithSpace_ne_nil t2 ts2 (hg2 t2 (by simp)).1
      rw [List.getLast?_append_of_ne_nil _ (by simp)]
      have : ' ' :: joinWithSpace (t2 :: ts2) = [' '] ++ joinWithSpace (t2 :: ts2) := rfl
      rw [this, List.getLast?_append_of_ne_nil _ hne, hc]

theorem dropWhile_eq_self_of_head {p : Char → Bool} : ∀ {l : Str},
    (∀ c, l.head? = some c → p c = false) → l.dropWhile p = l
  | [], _ => rfl
  | c :: t, h => by
    rw [List.dropWhile_cons, h c rfl]
    simp

theorem pyStrip_eq_self {s : Str}
    (h1 : ∀ c, s.head? = some c → isPySpace c = false)
    (h2 : ∀ c, s.getLast? = some c → isPySpace c = false) :
    pyStrip s = s := by
  unfold pyStrip
  rw [dropWhile_eq_self_of_head h1,
    dropWhile_eq_self_of_head (fun c hc => h2 c (by rwa [List.head?_reverse] at hc)),
    List.reverse_reverse]

/-- A join of good tokens has no leading or trailing whitespace. -/
theorem pyStrip_join (toks : List Str) (h : goodToks toks) :
    pyStrip (joinWithSpace toks) = joinWithSpace toks := by
  cases toks with
  | nil => rfl
  | cons t ts =>
    have ht : t ≠ [] := (h t (by simp)).1
    refine pyStrip_eq_self ?_ ?_
    · intro c hc
      rw [joinWithSpace_head? t ts ht] at hc
      have hct : c ∈ t := List.mem_of_mem_head? (by simp [hc])
      exact (h t (by simp)).2 c hct
    · intro c hc
      obtain ⟨c0, hc0, hc0s⟩ := joinWithSpace_getLast? (t :: ts) h (by simp)
      rw [hc0] at hc
      cases hc
      exact hc0s

/-- The final strip inside clean_text is a no-op: clean_text is the plain
space-join of the tokens. -/
theorem clean_text_eq_join (s : Str) :
    clean_text s = joinWithSpace (pySplit s) := by
  unfold clean_text
  exact pyStrip_join (pySplit s) (pySplit_tokens s)

/-- clean_text output contains no whitespace other than single spaces. -/
theorem not_mem_clean_text {c : Char} (hs : isPySpace c = true) (hn : c ≠ ' ') (s : Str) :
    c ∉ clean_text s := by
  rw [clean_text_eq_join]
  intro hmem
  rcases joinWithSpace_chars (pySplit s) c hmem with rfl | ⟨t, ht, hct⟩
  · exact hn rfl
  · have := (pySplit_tokens s t ht).2 c hct
    rw [hs] at this
    cases this

theorem pySplit_clean_text (s : Str) : pySplit (clean_text s) = pySplit s := by
  rw [clean_text_eq_join, pySplit_join (pySplit s) (pySplit_tokens s)]

theorem clean_text_idem (s : Str) : clean_text (clean_text s) = clean_text s := by
  show pyStrip (joinWithSpace (pySplit (clean_text s))) = clean_text s
  rw [pySplit_clean_text]
  rfl

theorem pyStrip_clean_text (s : Str) : pyStrip (clean_text s) = clean_text s := by
  rw [clean_text_eq_join]
  exact pyStrip_join (pySplit s) (pySplit_tokens s)

/-- Leading whitespace does not change the tokens. -/
theorem pySplit_dropWhile (v : Str) :
    pySplit (v.dropWhile isPySpace) = pySplit v := by
  induction v with
  | nil => rfl
  | cons c v ih =>
    rw [List.dropWhile_cons]
    by_cases hc : isPySpace c
    · rw [if_pos hc, ih]
      show _ = splitAux (c :: v) []
      rw [splitAux_cons, if_pos hc, if_pos rfl]
      rfl
    · rw [if_neg hc]

/-- Stripping does not change the tokens. -/
theorem pySplit_strip (v : Str) : pySplit (pyStrip v) = pySplit v := by
  unfold pyStrip
  set u := v.dropWhile isPySpace with hu
  have hdecomp : u = (u.reverse.dropWhile isPySpace).reverse ++ (u.reverse.takeWhile isPySpace).reverse := by
    have h0 : u.reverse.takeWhile isPySpace ++ u.reverse.dropWhile isPySpace = u.reverse :=
      List.takeWhile_append_dropWhile isPySpace u.reverse
    have h1 := congrArg List.reverse h0
    rw [List.reverse_append, List.reverse_reverse] at h1
    exact h1.symm
  have hsp : ∀ c ∈ (u.reverse.takeWhile isPySpace).reverse, isPySpace c = true := by
    intro c hc
    exact List.mem_takeWhile_imp (List.mem_reverse.mp hc)
  calc pySplit (u.reverse.dropWhile isPySpace).reverse
      = splitAux ((u.reverse.dropWhile isPySpace).reverse ++ (u.reverse.takeWhile isPySpace).reverse) [] := by
        rw [splitAux_trailspace _ hsp]
        rfl
    _ = pySplit u := by rw [← hdecomp]; rfl
    _ = pySplit v := pySplit_dropWhile v

/-- clean_text of a join ignores per-element stripping. -/
theorem clean_text_join_strip (l : List Str) :
    clean_text (joinWithSpace (l.map pyStrip)) = clean_text (joinWithSpace l) := by
  show pyStrip (joinWithSpace (pySplit _)) = pyStrip (joinWithSpace (pySplit _))
  rw [pySplit_join_flatten, pySplit_join_flatten, List.map_map]
  have : l.map (pySplit ∘ pyStrip) = l.map pySplit :=
    List.map_congr_left fun t _ => pySplit_strip t
  rw [this]

/-! ## Lemmas about chunking -/

theorem chunksAux_length_le : ∀ (fuel : Nat) (s : Str), s.length ≤ fuel →
    ∀ c ∈ chunksAux fuel s, c.length ≤ 800 := by
  intro fuel
  induction fuel with
  | zero =>
    intro s hs c hc
    have : s = [] := List.length_eq_zero.mp (Nat.le_zero.mp hs)
    subst this
    simp [chunksAux] at hc
  | succ fuel ih =>
    intro s hs c hc
    cases s with
    | nil => simp [chunksAux] at hc
    | cons a s0 =>
      rw [show chunksAux (fuel + 1) (a :: s0) = (a :: s0).take 800 :: chunksAux fuel ((a :: s0).drop 800) from rfl] at hc
      rcases List.mem_cons.mp hc with rfl | hc
      · simpa using List.length_take_le 800 (a :: s0)
      · refine ih ((a :: s0).drop 800) ?_ c hc
        simp only [List.length_drop, List.length_cons]
        simp only [List.length_cons] at hs
        omega

theorem chunksAux_join : ∀ (fuel : Nat) (s : Str), s.length ≤ fuel →
    joinAll (chunksAux fuel s) = s := by
  intro fuel
  induction fuel with
  | zero =>
    intro s hs
    have : s = [] := List.length_eq_zero.mp (Nat.le_zero.mp hs)
    subst this
    rfl
  | succ fuel ih =>
    intro s hs
    cases s with
    | nil => rfl
    | cons a s0 =>
      rw [show chunksAux (fuel + 1) (a :: s0) = (a :: s0).take 800 :: chunksAux fuel ((a :: s0).drop 800) from rfl]
      show (a :: s0).take 800 ++ joinAll (chunksAux fuel ((a :: s0).drop 800)) = a :: s0
      rw [ih ((a :: s0).drop 800) (by
        simp only [List.length_drop, List.length_cons]
        simp only [List.length_cons] at hs
        omega)]
      exact List.take_append_drop 800 (a :: s0)

/-- Every chunk is at most 800 characters. -/
theorem chunks_length_le (s : Str) : ∀ c ∈ chunks s, c.length ≤ 800 :=
  chunksAux_length_le s.length s (Nat.le_refl _)

/-- Concatenating the chunks in order reconstructs the text exactly. -/
theorem chunks_join (s : Str) : joinAll (chunks s) = s :=
  chunksAux_join s.length s (Nat.le_refl _)

/-! ## Lemmas about deduplication -/

theorem mem_dedupeAux : ∀ (l seen : List Str) (x : Str),
    x ∈ dedupeAux seen l ↔ x ∈ l ∧ x ∉ seen := by
  intro l
  induction l with
  | nil => intro seen x; simp [dedupeAux]
  | cons y ys ih =>
    intro seen x
    show x ∈ (if y ∈ seen then dedupeAux seen ys else y :: dedupeAux (y :: seen) ys) ↔ _
    by_cases hy : y ∈ seen
    · rw [if_pos hy, ih]
      constructor
      · rintro ⟨hx, hxs⟩
        exact ⟨by simp [hx], hxs⟩
      · rintro ⟨hx, hxs⟩
        rcases List.mem_cons.mp hx with rfl | hx
        · exact absurd hy hxs
        · exact ⟨hx, hxs⟩
    · rw [if_neg hy]
      constructor
      · intro hx
        rcases List.mem_cons.mp hx with rfl | hx
        · exact ⟨by simp, hy⟩
        · rw [ih] at hx
          refine ⟨by simp [hx.1], fun hs => hx.2 (by simp [hs])⟩
      · rintro ⟨hx, hxs⟩
        rcases List.mem_cons.mp hx with rfl | hx
        · simp
        · by_cases hxy : x = y
          · simp [hxy]
          · refine List.mem_cons_of_mem y ?_
            rw [ih]
            exact ⟨hx, by simp [hxy, hxs]⟩

theorem dedupeAux_nodup : ∀ (l seen : List Str), (dedupeAux seen l).Nodup := by
  intro l
  induction l with
  | nil => intro seen; simp [dedupeAux]
  | cons y ys ih =>
    intro seen
    show (if y ∈ seen then dedupeAux seen ys else y :: dedupeAux (y :: seen) ys).Nodup
    by_cases hy : y ∈ seen
    · rw [if_pos hy]; exact ih seen
    · rw [if_neg hy]
      refine List.nodup_cons.mpr ⟨?_, ih (y :: seen)⟩
      intro hmem
      exact ((mem_dedupeAux ys (y :: seen) y).mp hmem).2 (by simp)

theorem dedupeAux_sublist : ∀ (l seen : List Str), (dedupeAux seen l).Sublist l := by
  intro l
  induction l with
  | nil => intro seen; simp [dedupeAux]
  | cons y ys ih =>
    intro seen
    show (if y ∈ seen then dedupeAux seen ys else y :: dedupeAux (y :: seen) ys).Sublist (y :: ys)
    by_cases hy : y ∈ seen
    · rw [if_pos hy]; exact (ih seen).cons y
    · rw [if_neg hy]; exact (ih (y :: seen)).cons₂ y

theorem dedupeAux_eq_self : ∀ (l seen : List Str), l.Nodup → (∀ x ∈ l, x ∉ seen) →
    dedupeAux seen l = l := by
  intro l
  induction l with
  | nil => intro seen _ _; rfl
  | cons y ys ih =>
    intro seen hnd hdisj
    show (if y ∈ seen then dedupeAux seen ys else y :: dedupeAux (y :: seen) ys) = y :: ys
    rw [if_neg (hdisj y (by simp))]
    rw [ih (y :: seen) (List.nodup_cons.mp hnd).2]
    intro x hx
    intro hmem
    rcases List.mem_cons.mp hmem with rfl | hmem
    · exact (List.nodup_cons.mp hnd).1 hx
    · exact hdisj x (by simp [hx]) hmem

theorem dedupeAux_firstIdx : ∀ (l seen : List Str) (A B : Str), A ≠ B →
    A ∉ seen → B ∉ seen → A ∈ l → B ∈ l →
    firstIdx A l < firstIdx B l →
    firstIdx A (dedupeAux seen l) < firstIdx B (dedupeAux seen l) := by
  intro l
  induction l with
  | nil => intro seen A B _ _ _ hA _ _; simp at hA
  | cons y ys ih =>
    intro seen A B hAB hAs hBs hA hB hlt
    show firstIdx A (if y ∈ seen then dedupeAux seen ys else y :: dedupeAux (y :: seen) ys)
      < firstIdx B (if y ∈ seen then dedupeAux seen ys else y :: dedupeAux (y :: seen) ys)
    by_cases hy : y ∈ seen
    · rw [if_pos hy]
      have hAy : A ≠ y := fun h => hAs (h ▸ hy)
      have hBy : B ≠ y := fun h => hBs (h ▸ hy)
      have hA2 : A ∈ ys := by
        rcases List.mem_cons.mp hA with rfl | h
        · exact absurd rfl hAy
        · exact h
      have hB2 : B ∈ ys := by
        rcases List.mem_cons.mp hB with rfl | h
        · exact absurd rfl hBy
        · exact h
      refine ih seen A B hAB hAs hBs hA2 hB2 ?_
      have e1 : firstIdx A (y :: ys) = firstIdx A ys + 1 := by
        show (if y = A then 0 else firstIdx A ys + 1) = _
        rw [if_neg (fun h => hAy h.symm)]
      have e2 : firstIdx B (y :: ys) = firstIdx B ys + 1 := by
        show (if y = B then 0 else firstIdx B ys + 1) = _
        rw [if_neg (fun h => hBy h.symm)]
      rw [e1, e2] at hlt
      omega
    · rw [if_neg hy]
      by_cases hAy : A = y
      · subst hAy
        have hBy : B ≠ A := fun h => hAB h.symm
        have e1 : firstIdx A (A :: dedupeAux (A :: seen) ys) = 0 := by
          show (if A = A then 0 else _) = 0
          rw [if_pos rfl]
        have e2 : firstIdx B (A :: dedupeAux (A :: seen) ys)
            = firstIdx B (dedupeAux (A :: seen) ys) + 1 := by
          show (if A = B then 0 else _) = _
          rw [if_neg (fun h => hAB h)]
        rw [e1, e2]
        omega
      · by_cases hBy : B = y
        · subst hBy
          have e2 : firstIdx B (B :: ys) = 0 := by
            show (if B = B then 0 else _) = 0
            rw [if_pos rfl]
          rw [e2] at hlt
          omega
        · have hA2 : A ∈ ys := by
            rcases List.mem_cons.mp hA with rfl | h
            · exact absurd rfl hAy
            · exact h
          have hB2 : B ∈ ys := by
            rcases List.mem_cons.mp hB with rfl | h
            · exact absurd rfl hBy
            · exact h
          have e1 : firstIdx A (y :: ys) = firstIdx A ys + 1 := by
            show (if y = A then 0 else firstIdx A ys + 1) = _
            rw [if_neg (fun h => hAy h.symm)]
          have e2 : firstIdx B (y :: ys) = firstIdx B ys + 1 := by
            show (if y = B then 0 else firstIdx B ys + 1) = _
            rw [if_neg (fun h => hBy h.symm)]
          rw [e1, e2] at hlt
          have hlt2 : firstIdx A ys < firstIdx B ys := by omega
          have hrec := ih (y :: seen) A B hAB
            (by intro h; rcases List.mem_cons.mp h with h2 | h2; exact hAy h2; exact hAs h2)
            (by intro h; rcases List.mem_cons.mp h with h2 | h2; exact hBy h2; exact hBs h2)
            hA2 hB2 hlt2
          have f1 : firstIdx A (y :: dedupeAux (y :: seen) ys)
              = firstIdx A (dedupeAux (y :: seen) ys) + 1 := by
            show (if y = A then 0 else _) = _
            rw [if_neg (fun h => hAy h.symm)]
          have f2 : firstIdx B (y :: dedupeAux (y :: seen) ys)
              = firstIdx B (dedupeAux (y :: seen) ys) + 1 := by
            show (if y = B then 0 else _) = _
            rw [if_neg (fun h => hBy h.symm)]
          rw [f1, f2]
          omega

/-! ## Lemmas about the aggregation step and line shapes -/

theorem mem_aggregate {l : Str} {ls : List Str} :
    l ∈ aggregate ls ↔ ∃ x, x ∈ ls ∧ keep_line x = true ∧ clean_text x = l := by
  unfold aggregate dedupe_keep_order
  rw [mem_dedupeAux]
  simp only [List.mem_map, List.mem_filter, List.not_mem_nil, not_false_iff, and_true]
  constructor
  · rintro ⟨a, ⟨ha, hk⟩, rfl⟩
    exact ⟨a, ha, hk, rfl⟩
  · rintro ⟨a, ha, hk, rfl⟩
    exact ⟨a, ⟨ha, hk⟩, rfl⟩

theorem foldl_append_flatten {α β : Type} (g : α → List β) : ∀ (l : List α) (init : List β),
    l.foldl (fun acc y => acc ++ g y) init = init ++ (l.map g).flatten := by
  intro l
  induction l with
  | nil => intro init; simp
  | cons y ys ih =>
    intro init
    rw [List.foldl_cons, ih]
    simp [List.append_assoc]

/-- The contribution of one URL to build_lines_from_web. -/
def webContrib (e : Env) (o : NetOracle) (vis : Str → Str) (url : Str) : List Str :=
  match (fetchWebOne e o vis url).2 with
  | some t => if t.isEmpty then [] else webLinesFor url t
  | none => []

theorem build_lines_from_web_eq (e : Env) (o : NetOracle) (vis : Str → Str) (urls : List Str) :
    build_lines_from_web e o vis urls = (urls.map (webContrib e o vis)).flatten := by
  unfold build_lines_from_web
  have hfun : (fun (acc : List Str) url =>
      match (fetchWebOne e o vis url).2 with
      | some t => if t.isEmpty then acc else acc ++ webLinesFor url t
      | none => acc) = fun acc url => acc ++ webContrib e o vis url := by
    funext acc url
    unfold webContrib
    cases (fetchWebOne e o vis url).2 with
    | none => simp
    | some t =>
      by_cases ht : t.isEmpty <;> simp [ht]
  rw [hfun, foldl_append_flatten]
  rfl

/-- Every line built from the web stage is a formatted web line. -/
theorem mem_build_lines_from_web {x : Str} {e : Env} {o : NetOracle} {vis : Str → Str}
    {urls : List Str} (hx : x ∈ build_lines_from_web e o vis urls) :
    ∃ url c, x = fmtWeb url c := by
  rw [build_lines_from_web_eq] at hx
  rcases List.mem_flatten.mp hx with ⟨block, hblock, hxb⟩
  rcases List.mem_map.mp hblock with ⟨url, _, rfl⟩
  unfold webContrib at hxb
  rcases hfetch : (fetchWebOne e o vis url).2 with _ | t
  · rw [hfetch] at hxb
    simp at hxb
  · rw [hfetch] at hxb
    by_cases ht : t.isEmpty
    · simp [ht] at hxb
    · simp only [ht, if_false] at hxb
      rcases List.mem_map.mp hxb with ⟨c, _, rfl⟩
      exact ⟨url, c, rfl⟩

theorem pySplit_pipe_cons (c : Str) :
    pySplit ('|' :: ' ' :: c) = ['|'] :: pySplit c := by
  have h := pySplit_space_append ['|'] c
  have e1 : ['|'] ++ ' ' :: c = '|' :: ' ' :: c := rfl
  rw [e1] at h
  rw [h, pySplit_single ['|'] (by decide) (by decide)]
  rfl

theorem pySplit_fmtWeb (url c : Str) :
    pySplit (fmtWeb url c) = srcWebTag :: (pySplit url ++ ['|'] :: pySplit c) := by
  have e1 : fmtWeb url c = srcWebTag ++ ' ' :: (url ++ ' ' :: ('|' :: ' ' :: c)) := by
    unfold fmtWeb webPre
    simp [List.append_assoc]
  rw [e1, pySplit_space_append, pySplit_space_append,
    pySplit_single srcWebTag (by decide) (by decide), pySplit_pipe_cons]
  rfl

/-- A cleaned web line starts with "SRC:WEB ". -/
theorem clean_text_fmtWeb_shape (url c : Str) :
    ∃ r, clean_text (fmtWeb url c) = srcWebTag ++ ' ' :: r := by
  rw [clean_text_eq_join, pySplit_fmtWeb]
  have hne : pySplit url ++ ['|'] :: pySplit c ≠ [] := by simp
  obtain ⟨h0, tl, heq⟩ := List.exists_cons_of_ne_nil hne
  rw [heq, joinWithSpace_cons₂]
  exact ⟨joinWithSpace (h0 :: tl), rfl⟩

/-- "SRC:APIFY" is not a prefix of a string starting with "SRC:WEB ". -/
theorem apify_tag_not_prefix (r : Str) :
    srcApifyTag.isPrefixOf (srcWebTag ++ ' ' :: r) = false := rfl

/-! ## Lemmas about placeholder resolution and JSON shape -/

theorem resolve_str (env : Str → Str) (s : Str) :
    resolve_env_placeholders env (.str s) = .str (substEnv env s) := by
  simp [resolve_env_placeholders]

theorem resolve_arr (env : Str → Str) (xs : List Json) :
    resolve_env_placeholders env (.arr xs) = .arr (xs.map (resolve_env_placeholders env)) := by
  rw [resolve_env_placeholders]
  rw [List.attach_map_val xs (resolve_env_placeholders env)]

theorem resolve_obj (env : Str → Str) (kvs : List (Str × Json)) :
    resolve_env_placeholders env (.obj kvs)
      = .obj (kvs.map fun kv => (kv.1, resolve_env_placeholders env kv.2)) := by
  rw [resolve_env_placeholders]
  rw [List.attach_map_val kvs (fun kv => (kv.1, resolve_env_placeholders env kv.2))]

theorem jsonShape_str (s : Str) : jsonShape (.str s) = .str [] := by
  simp [jsonShape]

theorem jsonShape_arr (xs : List Json) : jsonShape (.arr xs) = .arr (xs.map jsonShape) := by
  rw [jsonShape]
  rw [List.attach_map_val xs jsonShape]

theorem jsonShape_obj (kvs : List (Str × Json)) :
    jsonShape (.obj kvs) = .obj (kvs.map fun kv => (kv.1, jsonShape kv.2)) := by
  rw [jsonShape]
  rw [List.attach_map_val kvs (fun kv => (kv.1, jsonShape kv.2))]

theorem jsonShape_resolve (env : Str → Str) : ∀ (j : Json),
    jsonShape (resolve_env_placeholders env j) = jsonShape j
  | .str s => by rw [resolve_str, jsonShape_str, jsonShape_str]
  | .num n => by simp [resolve_env_placeholders]
  | .bool b => by simp [resolve_env_placeholders]
  | .null => by simp [resolve_env_placeholders]
  | .arr xs => by
      rw [resolve_arr, jsonShape_arr, jsonShape_arr, List.map_map]
      refine congrArg Json.arr (List.map_congr_left fun x hx => ?_)
      exact jsonShape_resolve env x
  | .obj kvs => by
      rw [resolve_obj, jsonShape_obj, jsonShape_obj, List.map_map]
      refine congrArg Json.obj (List.map_congr_left fun kv hkv => ?_)
      show (kv.1, jsonShape (resolve_env_placeholders env kv.2)) = (kv.1, jsonShape kv.2)
      rw [jsonShape_resolve env kv.2]
termination_by j => sizeOf j
decreasing_by
  · exact Nat.lt_trans (List.sizeOf_lt_of_mem hx) (by simp [Json.arr.sizeOf_spec])
  · have h1 : sizeOf kv.2 < sizeOf kv := by
      obtain ⟨k, v⟩ := kv
      simp only [Prod.mk.sizeOf_spec]
      omega
    exact Nat.lt_trans (Nat.lt_trans h1 (List.sizeOf_lt_of_mem hkv)) (by simp [Json.obj.sizeOf_spec])

/-! ## Declarative forms of the record-level extraction -/

theorem flatten_map_filterMap_strip {α : Type} (g : α → Option Str) (l : List α) :
    (l.map fun a => ((g a).map pyStrip).toList).flatten = (l.filterMap g).map pyStrip := by
  induction l with
  | nil => rfl
  | cons a as ih =>
    rw [List.map_cons, List.flatten_cons, List.filterMap_cons]
    cases g a with
    | none => simpa using ih
    | some v => simp [ih]

theorem flatten_map_filterMap {α : Type} (g : α → Option Str) (l : List α) :
    (l.map fun a => (g a).toList).flatten = l.filterMap g := by
  induction l with
  | nil => rfl
  | cons a as ih =>
    rw [List.map_cons, List.flatten_cons, List.filterMap_cons]
    cases g a with
    | none => simpa using ih
    | some v => simp [ih]

/-- The priority selection with the condition the code uses: a string value
whose stripped form is non-blank; the raw (unstripped) value is collected. -/
def prioritySelNonBlank (item : JsonRec) : List Str :=
  priorityKeys.filterMap fun k =>
    match dictGet item k with
    | .str v => if (pyStrip v).isEmpty then none else some v
    | _ => none

/-- The priority selection as the claim words it: a string value that is
non-empty (possibly all whitespace). -/
def prioritySelNonEmpty (item : JsonRec) : List Str :=
  priorityKeys.filterMap fun k =>
    match dictGet item k with
    | .str v => if v.isEmpty then none else some v
    | _ => none

/-- The fallback selection: string values longer than 20 characters, in
record order. -/
def fallbackSel (item : JsonRec) : List Str :=
  item.filterMap fun kv =>
    match kv.2 with
    | .str v => if 20 < v.length then some v else none
    | _ => none

/-- Claim C7 as literally stated, with "present as non-empty strings". -/
def extractC7Claim (item : JsonRec) : Str :=
  let pc := prioritySelNonEmpty item
  let cands := if pc.isEmpty then fallbackSel item else pc
  if cands.isEmpty then [] else clean_text (joinWithSpace cands)

/-- Claim C7 amended: a priority field counts only when its value is a
non-blank string (contains a non-whitespace character). -/
def extractC7Amended (item : JsonRec) : Str :=
  let pc := prioritySelNonBlank item
  let cands := if pc.isEmpty then fallbackSel item else pc
  if cands.isEmpty then [] else clean_text (joinWithSpace cands)

theorem priorityCands_eq (item : JsonRec) :
    priorityCands item = (prioritySelNonBlank item).map pyStrip := by
  unfold priorityCands prioritySelNonBlank
  have hfun : (fun (acc : List Str) k =>
      match dictGet item k with
      | Json.str v => if (pyStrip v).isEmpty then acc else acc ++ [pyStrip v]
      | _ => acc)
      = fun (acc : List Str) k => acc ++
          ((match dictGet item k with
            | Json.str v => if (pyStrip v).isEmpty then none else some v
            | _ => none).map pyStrip).toList := by
    funext acc k
    cases dictGet item k
    case str v => by_cases hv : (pyStrip v).isEmpty <;> simp [hv]
    all_goals simp
  rw [hfun, foldl_append_flatten]
  rw [flatten_map_filterMap_strip]
  rfl

theorem fallbackCands_eq (item : JsonRec) :
    fallbackCands item = fallbackSel item := by
  unfold fallbackCands fallbackSel
  have hfun : (fun (acc : List Str) (kv : Str × Json) =>
      match kv.2 with
      | Json.str v => if 20 < v.length then acc ++ [v] else acc
      | _ => acc)
      = fun (acc : List Str) kv => acc ++
          ((match kv.2 with
            | Json.str v => if 20 < v.length then some v else none
            | _ => none).toList : List Str) := by
    funext acc kv
    cases kv.2
    case str v => by_cases hv : 20 < v.length <;> simp [hv]
    all_goals simp
  rw [hfun, foldl_append_flatten]
  rw [flatten_map_filterMap]
  rfl

/-- The code's extraction agrees with the amended declarative form. -/
theorem extract_eq_amended (item : JsonRec) :
    extract_apify_text_fields item = extractC7Amended item := by
  unfold extract_apify_text_fields extractC7Amended
  rw [priorityCands_eq, fallbackCands_eq]
  by_cases hp : prioritySelNonBlank item = []
  · simp [List.isEmpty_iff, hp]
  · have hmapne : (prioritySelNonBlank item).map pyStrip ≠ [] := by simp [hp]
    simp only [List.isEmpty_iff]
    rw [if_neg hmapne, if_neg hp, if_neg hmapne, if_neg hp]
    exact clean_text_join_strip (prioritySelNonBlank item)

/-- The declarative first-truthy form of line 225. -/
def apifySrcAmended (item : JsonRec) (actor : Json) : Json :=
  (((srcKeys.filterMap fun k => dictLookup k item).filter jTruthy).head?).getD actor

/-- Claim C8 as literally stated: the value of the first present key. -/
def apifySrcClaim (item : JsonRec) (actor : Json) : Json :=
  ((srcKeys.filterMap fun k => dictLookup k item).head?).getD actor

theorem pyOrChain_filter : ∀ (vals : List Json) (a : Json),
    vals.foldr pyOr a = ((vals.filter jTruthy).head?).getD a := by
  intro vals
  induction vals with
  | nil => intro a; rfl
  | cons v vs ih =>
    intro a
    rw [List.foldr_cons, List.filter_cons]
    by_cases tv : jTruthy v
    · rw [if_pos tv]
      show pyOr v _ = _
      rw [pyOr, if_pos tv]
      rfl
    · rw [if_neg tv]
      show pyOr v _ = _
      rw [pyOr, if_neg tv]
      exact ih a

theorem filter_truthy_get_eq (item : JsonRec) : ∀ (keys : List Str),
    (keys.map fun k => dictGet item k).filter jTruthy
      = (keys.filterMap fun k => dictLookup k item).filter jTruthy := by
  intro keys
  induction keys with
  | nil => rfl
  | cons k ks ih =>
    rw [List.map_cons, List.filterMap_cons]
    cases hk : dictLookup k item with
    | none =>
      rw [List.filter_cons]
      have hnull : dictGet item k = Json.null := by rw [dictGet, hk]; rfl
      rw [hnull]
      rw [if_neg (by simp [jTruthy])]
      exact ih
    | some v =>
      rw [List.filter_cons, List.filter_cons]
      have hv : dictGet item k = v := by rw [dictGet, hk]; rfl
      rw [hv, ih]

theorem apifySrc_eq_amended (item : JsonRec) (actor : Json) :
    apifySrc item actor = apifySrcAmended item actor := by
  have h0 : apifySrc item actor
      = ((([dictGet item ['u','r','l'], dictGet item ['l','i','n','k'],
          dictGet item ['p','e','r','m','a','l','i','n','k']].filter jTruthy).head?).getD actor) :=
    pyOrChain_filter [dictGet item ['u','r','l'], dictGet item ['l','i','n','k'],
      dictGet item ['p','e','r','m','a','l','i','n','k']] actor
  rw [h0]
  unfold apifySrcAmended srcKeys
  rw [← filter_truthy_get_eq item [['u','r','l'], ['l','i','n','k'],
    ['p','e','r','m','a','l','i','n','k']]]
  rfl

/-! ## Claim theorems -/

/-- C5: the aggregation step is idempotent — on a list of lines that is
already whitespace-normalized (each line a clean_text fixed point), free of
empty lines, and deduplicated, the normalize/drop-empty/dedupe
transformation of main returns the list unchanged. -/
theorem aggregate_idempotent (ls : List Str)
    (hnorm : ∀ l ∈ ls, clean_text l = l ∧ l ≠ [])
    (hnd : ls.Nodup) :
    aggregate ls = ls := by
  unfold aggregate
  have hfilter : ls.filter keep_line = ls := by
    apply List.filter_eq_self.mpr
    intro a ha
    have h1 := (hnorm a ha).1
    have h2 := (hnorm a ha).2
    have h3 : pyStrip a = a := by
      conv_lhs => rw [← h1]
      rw [pyStrip_clean_text, h1]
    unfold keep_line
    rw [h3]
    simp [List.isEmpty_iff, h2]
  rw [hfilter]
  have hmap : ls.map clean_text = ls := by
    rw [show ls.map clean_text = ls.map id from
      List.map_congr_left fun a ha => (hnorm a ha).1, List.map_id]
  rw [hmap]
  exact dedupeAux_eq_self ls [] hnd (by simp)

/-- C5 witness: a concrete normalized, nonempty, deduplicated list is a
fixed point of the aggregation step. -/
theorem aggregate_idempotent_witness :
    aggregate [['a'], ['b', 'x']] = [['a'], ['b', 'x']] :=
  aggregate_idempotent [['a'], ['b', 'x']]
    (by decide) (by decide)

/-- C6: dedupe_keep_order keeps exactly one copy of every distinct line
(membership is preserved and the result has no duplicates), the result is a
subsequence of the input, and when two distinct surviving lines A and B
have the first occurrence of A before that of B, A precedes B in the
output. -/
theorem dedupe_keep_order_first_occurrence (l : List Str) :
    (∀ x, x ∈ dedupe_keep_order l ↔ x ∈ l) ∧
    (dedupe_keep_order l).Nodup ∧
    (dedupe_keep_order l).Sublist l ∧
    (∀ A B, A ≠ B → A ∈ dedupe_keep_order l → B ∈ dedupe_keep_order l →
      firstIdx A l < firstIdx B l →
      firstIdx A (dedupe_keep_order l) < firstIdx B (dedupe_keep_order l)) := by
  refine ⟨?_, dedupeAux_nodup l [], dedupeAux_sublist l [], ?_⟩
  · intro x
    rw [dedupe_keep_order, mem_dedupeAux]
    simp
  · intro A B hAB hA hB hlt
    have hA2 := (mem_dedupeAux l [] A).mp hA
    have hB2 := (mem_dedupeAux l [] B).mp hB
    exact dedupeAux_firstIdx l [] A B hAB (by simp) (by simp) hA2.1 hB2.1 hlt

/-- C6 witness: on [a, b, a] the survivors a and b keep their first-seen
order. -/
theorem dedupe_keep_order_first_occurrence_witness :
    firstIdx ['a'] (dedupe_keep_order [['a'], ['b'], ['a']])
      < firstIdx ['b'] (dedupe_keep_order [['a'], ['b'], ['a']]) :=
  (dedupe_keep_order_first_occurrence [['a'], ['b'], ['a']]).2.2.2
    ['a'] ['b'] (by decide) (by decide) (by decide) (by decide)

/-- C9: every line in the aggregated output written to the file contains no
newline character — whitespace normalization has replaced every whitespace
run (newlines included) by a single space — so each formatted line occupies
exactly one physical line of the newline-joined output. -/
theorem output_lines_no_newline (e : Env) (o : NetOracle) (vis : Str → Str)
    (ao : ApifyOracle) (f : Json → Str) (srcExists : Bool)
    (parsed : Except Str (Option RawCfg)) (code : Nat) (lines : List Str)
    (hrun : mainRun e o vis ao f srcExists parsed = .ok (code, lines)) :
    ∀ l ∈ lines, '\n' ∉ l := by
  unfold mainRun at hrun
  cases hread : read_sources srcExists parsed with
  | error err =>
    rw [hread] at hrun
    exact absurd hrun (by simp)
  | ok cfg =>
    rw [hread] at hrun
    simp only [Except.ok.injEq, Prod.mk.injEq] at hrun
    obtain ⟨-, rfl⟩ := hrun
    intro l hl
    obtain ⟨x, -, -, rfl⟩ := mem_aggregate.mp hl
    exact not_mem_clean_text (by decide) (by decide) x

/-- C9 witness: in a concrete run producing one line, that line contains no
newline. -/
theorem output_lines_no_newline_witness :
    '\n' ∉ fmtWeb ['u'] ['h', 'i'] :=
  output_lines_no_newline ⟨[], [], fun _ => []⟩
    ⟨fun _ => none, fun _ => none, fun _ => some ['h', 'i']⟩ (fun h => h)
    ⟨fun _ _ => none⟩ (fun _ => []) true (.ok (some ⟨some [['u']], none⟩)) 0
    [fmtWeb ['u'] ['h', 'i']] rfl (fmtWeb ['u'] ['h', 'i']) (by simp)

/-- C10: placeholder resolution only rewrites string leaves — the JSON
shape (constructors, dict key lists and order, list lengths and order, and
every non-string leaf) is unchanged. -/
theorem resolve_env_placeholders_frame (env : Str → Str) (j : Json) :
    jsonShape (resolve_env_placeholders env j) = jsonShape j :=
  jsonShape_resolve env j

/-- C3: with the scraping-service credential absent, firecrawl_scrape
returns immediately without contacting any endpoint, and the web source is
served by the direct HTTP fetch followed by HTML text extraction. -/
theorem firecrawl_key_absent_direct_fallback (e : Env) (o : NetOracle) (vis : Str → Str)
    (url : Str) (hkey : e.firecrawlKey = []) :
    firecrawl_scrape e o url = ([], none) ∧
    (fetchWebOne e o vis url).1 = [Call.direct url] ∧
    (fetchWebOne e o vis url).2 = (o.direct url).map (extract_text_from_html vis) := by
  have hfc : firecrawl_scrape e o url = ([], none) := by
    unfold firecrawl_scrape firecrawl_enabled
    rw [hkey]
    rfl
  refine ⟨hfc, ?_, ?_⟩ <;>
    · unfold fetchWebOne
      rw [hfc]
      cases o.direct url <;> simp

/-- C3 witness: a concrete environment without the key, whose oracle would
answer the scrape endpoints, still goes directly to the plain fetch. -/
theorem firecrawl_key_absent_direct_fallback_witness :
    firecrawl_scrape ⟨[], ['t'], fun _ => []⟩
      ⟨fun _ => some ['x'], fun _ => some ['y'], fun _ => some ['h']⟩ ['u'] = ([], none) ∧
    (fetchWebOne ⟨[], ['t'], fun _ => []⟩
      ⟨fun _ => some ['x'], fun _ => some ['y'], fun _ => some ['h']⟩ (fun h => h) ['u']).1
      = [Call.direct ['u']] ∧
    (fetchWebOne ⟨[], ['t'], fun _ => []⟩
      ⟨fun _ => some ['x'], fun _ => some ['y'], fun _ => some ['h']⟩ (fun h => h) ['u']).2
      = ((⟨fun _ => some ['x'], fun _ => some ['y'], fun _ => some ['h']⟩ : NetOracle).direct
          ['u']).map (extract_text_from_html (fun h => h)) :=
  firecrawl_key_absent_direct_fallback ⟨[], ['t'], fun _ => []⟩
    ⟨fun _ => some ['x'], fun _ => some ['y'], fun _ => some ['h']⟩ (fun h => h) ['u'] rfl

/-- C4: with the actor-platform token unset, main skips the actor stage
entirely — the run completes with exit code 0 and the output is exactly the
aggregate of the web lines (empty when there are no web sources) — and no
line of that output carries the SRC:APIFY label. -/
theorem apify_token_unset_skips_actor_stage (e : Env) (o : NetOracle) (vis : Str → Str)
    (ao : ApifyOracle) (f : Json → Str) (srcExists : Bool)
    (parsed : Except Str (Option RawCfg)) (cfg : SourceConfig)
    (hread : read_sources srcExists parsed = .ok cfg)
    (htok : e.apifyToken = []) :
    mainRun e o vis ao f srcExists parsed =
      .ok (0, aggregate (if cfg.web.isEmpty then []
        else build_lines_from_web e o vis cfg.web)) ∧
    ∀ l, l ∈ aggregate (if cfg.web.isEmpty then []
        else build_lines_from_web e o vis cfg.web) →
      srcApifyTag.isPrefixOf l = false := by
  constructor
  · unfold mainRun
    rw [hread]
    have hen : apify_enabled e = false := by
      unfold apify_enabled
      rw [htok]
      rfl
    simp [hen]
  · intro l hl
    obtain ⟨x, hx, -, rfl⟩ := mem_aggregate.mp hl
    have hx2 : x ∈ build_lines_from_web e o vis cfg.web := by
      by_cases hw : cfg.web.isEmpty
      · rw [if_pos hw] at hx
        simp at hx
      · rw [if_neg hw] at hx
        exact hx
    obtain ⟨url, c, rfl⟩ := mem_build_lines_from_web hx2
    obtain ⟨r, hshape⟩ := clean_text_fmtWeb_shape url c
    rw [hshape]
    exact apify_tag_not_prefix r

/-- C4 witness: a run with one web source, one configured actor whose
oracle would return a record, and no token: the actor stage is skipped and
the output carries only web lines. -/
theorem apify_token_unset_skips_actor_stage_witness :
    mainRun ⟨['k'], [], fun _ => []⟩
        ⟨fun _ => some ['h', 'i'], fun _ => none, fun _ => none⟩ (fun h => h)
        ⟨fun _ _ => some [[(['t','e','x','t'], Json.str ['z'])]]⟩ (fun _ => []) true
        (.ok (some ⟨some [['u']], some [[(['a','c','t','o','r'], Json.str ['a'])]]⟩))
      = .ok (0, aggregate (if (⟨[['u']], [[(['a','c','t','o','r'], Json.str ['a'])]]⟩ :
            SourceConfig).web.isEmpty then []
          else build_lines_from_web ⟨['k'], [], fun _ => []⟩
            ⟨fun _ => some ['h', 'i'], fun _ => none, fun _ => none⟩ (fun h => h)
            (⟨[['u']], [[(['a','c','t','o','r'], Json.str ['a'])]]⟩ : SourceConfig).web)) ∧
    ∀ l, l ∈ aggregate (if (⟨[['u']], [[(['a','c','t','o','r'], Json.str ['a'])]]⟩ :
            SourceConfig).web.isEmpty then []
          else build_lines_from_web ⟨['k'], [], fun _ => []⟩
            ⟨fun _ => some ['h', 'i'], fun _ => none, fun _ => none⟩ (fun h => h)
            (⟨[['u']], [[(['a','c','t','o','r'], Json.str ['a'])]]⟩ : SourceConfig).web) →
      srcApifyTag.isPrefixOf l = false :=
  apify_token_unset_skips_actor_stage ⟨['k'], [], fun _ => []⟩
    ⟨fun _ => some ['h', 'i'], fun _ => none, fun _ => none⟩ (fun h => h)
    ⟨fun _ _ => some [[(['t','e','x','t'], Json.str ['z'])]]⟩ (fun _ => []) true
    (.ok (some ⟨some [['u']], some [[(['a','c','t','o','r'], Json.str ['a'])]]⟩))
    ⟨[['u']], [[(['a','c','t','o','r'], Json.str ['a'])]]⟩ rfl rfl

/-- C2 counterexample: when the document exists but the parser raises, the
Source Loader does not produce the empty configuration — the error
propagates and the run fails. -/
theorem read_sources_unparseable_cex :
    read_sources true (.error ['b','a','d']) ≠ .ok (⟨[], []⟩ : SourceConfig) ∧
    mainRun ⟨[], [], fun _ => []⟩ ⟨fun _ => none, fun _ => none, fun _ => none⟩
        (fun h => h) ⟨fun _ _ => none⟩ (fun _ => []) true (.error ['b','a','d'])
      = .error ['b','a','d'] := by
  constructor
  · intro h
    simp [read_sources] at h
  · rfl

/-- C2 amended: an absent document, or one that parses to an empty (null)
document, degrades to the empty configuration and the run continues; an
unparseable document propagates the parse error and the run fails. -/
theorem read_sources_absent_or_empty_config (parsed : Except Str (Option RawCfg)) (err : Str) :
    read_sources false parsed = .ok ⟨[], []⟩ ∧
    read_sources true (.ok none) = .ok ⟨[], []⟩ ∧
    read_sources true (.error err) = .error err := by
  exact ⟨rfl, rfl, rfl⟩

/-- C7 counterexample: a record whose priority field text is a non-empty
but all-whitespace string.  The claim (collect priority values present as
non-empty strings) yields no text and would drop the record; the code
treats the blank value as absent, falls back to the long string field, and
emits its text. -/
theorem extract_apify_claim_cex :
    extract_apify_text_fields
        [(['t','e','x','t'], Json.str [' ', ' ', ' ']),
         (['b','i','o'], Json.str (List.replicate 21 'x'))]
      = List.replicate 21 'x' ∧
    extractC7Claim
        [(['t','e','x','t'], Json.str [' ', ' ', ' ']),
         (['b','i','o'], Json.str (List.replicate 21 'x'))]
      = [] ∧
    (List.replicate 21 'x' : Str) ≠ [] := by
  refine ⟨by decide, by decide, by decide⟩

/-- C7 amended: per record, the code collects the priority-field values
that are non-blank strings (a value that is only whitespace counts as
absent), in priority order; when none qualifies it collects every string
field longer than 20 characters in record order; the collected strings are
joined with single spaces and whitespace-normalized (so pre-stripping the
values does not change the result); and a record yielding no text emits no
line. -/
theorem extract_apify_fields_spec (item : JsonRec) (f : Json → Str) (actor : Json) :
    extract_apify_text_fields item = extractC7Amended item ∧
    (extract_apify_text_fields item = [] → apifyItemLines f actor item = []) := by
  refine ⟨extract_eq_amended item, fun h => ?_⟩
  unfold apifyItemLines
  rw [h]
  rfl

/-- C7 witness: the empty record yields no text and emits no line. -/
theorem extract_apify_fields_spec_witness :
    extract_apify_text_fields [] = extractC7Amended [] ∧
    apifyItemLines (fun _ => []) Json.null [] = [] :=
  ⟨(extract_apify_fields_spec [] (fun _ => []) Json.null).1,
   (extract_apify_fields_spec [] (fun _ => []) Json.null).2 rfl⟩

/-- C8 counterexample: a record with url present but empty.  The claim
(value of the first present key) predicts the empty string; the code skips
the falsy value and uses link instead. -/
theorem apify_src_claim_cex :
    apifySrc [(['u','r','l'], Json.str []), (['l','i','n','k'], Json.str ['x'])]
        (Json.str ['a'])
      = Json.str ['x'] ∧
    apifySrcClaim [(['u','r','l'], Json.str []), (['l','i','n','k'], Json.str ['x'])]
        (Json.str ['a'])
      = Json.str [] ∧
    Json.str ['x'] ≠ Json.str [] := by
  refine ⟨rfl, rfl, ?_⟩
  intro h
  simp at h

/-- C8 amended: the source identifier is the first truthy value among the
url, link and permalink fields in that order — a missing key, or a present
key whose value is falsy (empty string, null, zero, false, empty
collection), is skipped — and otherwise the actor identifier; every line
the record emits is labelled with that identifier. -/
theorem apify_src_first_truthy (item : JsonRec) (actor : Json) (f : Json → Str) :
    apifySrc item actor = apifySrcAmended item actor ∧
    ∀ l ∈ apifyItemLines f actor item,
      ∃ c, l = fmtApify (strOf f (apifySrcAmended item actor)) c := by
  refine ⟨apifySrc_eq_amended item actor, ?_⟩
  intro l hl
  unfold apifyItemLines at hl
  by_cases ht : (extract_apify_text_fields item).isEmpty
  · rw [if_pos ht] at hl
    simp at hl
  · rw [if_neg ht] at hl
    obtain ⟨c, -, rfl⟩ := List.mem_map.mp hl
    exact ⟨c, by rw [apifySrc_eq_amended]⟩

/-- C8 witness: a concrete record with a truthy url and some text — the
identifier used on its emitted line is the url value. -/
theorem apify_src_first_truthy_witness :
    (apifySrc [(['t','e','x','t'], Json.str ['h','i']), (['u','r','l'], Json.str ['s'])]
        (Json.str ['a'])
      = apifySrcAmended [(['t','e','x','t'], Json.str ['h','i']), (['u','r','l'], Json.str ['s'])]
        (Json.str ['a'])) ∧
    (∃ c, fmtApify ['s'] ['h','i']
      = fmtApify (strOf (fun _ => [])
          (apifySrcAmended [(['t','e','x','t'], Json.str ['h','i']),
            (['u','r','l'], Json.str ['s'])] (Json.str ['a']))) c) :=
  ⟨(apify_src_first_truthy [(['t','e','x','t'], Json.str ['h','i']),
      (['u','r','l'], Json.str ['s'])] (Json.str ['a']) (fun _ => [])).1,
   (apify_src_first_truthy [(['t','e','x','t'], Json.str ['h','i']),
      (['u','r','l'], Json.str ['s'])] (Json.str ['a']) (fun _ => [])).2
     (fmtApify ['s'] ['h','i']) (by decide)⟩

/-- C1 amended: for every URL and fetched text, every chunk produced from
the normalized text is at most 800 characters long, and concatenating the
chunk parts of the lines in emission order, as the web fetcher emits them
(before the aggregator re-normalizes and deduplicates the lines),
reconstructs the normalized text exactly; in the final output duplicate
lines are collapsed, so the reconstruction there can lose repeated
chunks. -/
theorem web_chunks_reconstruct_emission (url text : Str) :
    (∀ l ∈ webLinesFor url text, (l.drop (webPre url).length).length ≤ 800) ∧
    joinAll ((webLinesFor url text).map fun l => l.drop (webPre url).length)
      = clean_text text := by
  constructor
  · intro l hl
    unfold webLinesFor at hl
    obtain ⟨c, hc, rfl⟩ := List.mem_map.mp hl
    rw [show fmtWeb url c = webPre url ++ c from rfl, List.drop_left]
    exact chunks_length_le (clean_text text) c hc
  · unfold webLinesFor
    rw [List.map_map]
    rw [show ((fun l => l.drop (webPre url).length) ∘ fmtWeb url) = (fun c : Str => c) from
      funext fun c => List.drop_left (webPre url) c]
    rw [show (chunks (clean_text text)).map (fun c : Str => c) = chunks (clean_text text) from
      List.map_id (chunks (clean_text text))]
    exact chunks_join (clean_text text)

theorem take_replicate_le (a : Char) : ∀ (m n : Nat), m ≤ n →
    (List.replicate n a).take m = List.replicate m a := by
  intro m
  induction m with
  | zero => intro n _; rfl
  | succ m ih =>
    intro n hmn
    cases n with
    | zero => omega
    | succ n =>
      rw [List.replicate_succ, List.replicate_succ, List.take_succ_cons,
        ih n (by omega)]

theorem drop_replicate_eq (a : Char) : ∀ (m n : Nat),
    (List.replicate n a).drop m = List.replicate (n - m) a := by
  intro m
  induction m with
  | zero => intro n; rfl
  | succ m ih =>
    intro n
    cases n with
    | zero => simp
    | succ n =>
      rw [List.replicate_succ, List.drop_succ_cons, ih n]
      congr 1
      omega

theorem chunksAux_nil (fuel : Nat) : chunksAux fuel [] = [] := by
  cases fuel <;> rfl

theorem chunksAux_congr : ∀ (fuel fuel' : Nat) (s : Str), s.length ≤ fuel → s.length ≤ fuel' →
    chunksAux fuel s = chunksAux fuel' s := by
  intro fuel
  induction fuel with
  | zero =>
    intro fuel' s hs _
    have : s = [] := List.length_eq_zero.mp (Nat.le_zero.mp hs)
    subst this
    rw [chunksAux_nil, chunksAux_nil]
  | succ fuel ih =>
    intro fuel' s hs hs'
    cases s with
    | nil => rw [chunksAux_nil, chunksAux_nil]
    | cons c s0 =>
      cases fuel' with
      | zero => simp at hs'
      | succ fuel2 =>
        show (c :: s0).take 800 :: chunksAux fuel ((c :: s0).drop 800)
          = (c :: s0).take 800 :: chunksAux fuel2 ((c :: s0).drop 800)
        congr 1
        refine ih fuel2 ((c :: s0).drop 800) ?_ ?_ <;>
          · simp only [List.length_drop, List.length_cons]
            simp only [List.length_cons] at hs hs'
            omega

/-- One unfolding step of the chunking loop. -/
theorem chunks_step (s : Str) (hs : s ≠ []) :
    chunks s = s.take 800 :: chunks (s.drop 800) := by
  obtain ⟨c, s0, rfl⟩ := List.exists_cons_of_ne_nil hs
  show chunksAux (c :: s0).length (c :: s0) = _
  rw [show (c :: s0).length = s0.length + 1 from rfl]
  show (c :: s0).take 800 :: chunksAux s0.length ((c :: s0).drop 800) = _
  congr 1
  refine chunksAux_congr s0.length ((c :: s0).drop 800).length ((c :: s0).drop 800) ?_ (Nat.le_refl _)
  simp only [List.length_drop, List.length_cons]
  omega

theorem dedupeAux_cons_eq (seen : List Str) (x : Str) (xs : List Str) :
    dedupeAux seen (x :: xs)
      = if x ∈ seen then dedupeAux seen xs else x :: dedupeAux (x :: seen) xs := rfl

/-- Two copies of a line collapse to one under deduplication. -/
theorem dedupe_pair (x : Str) : dedupe_keep_order [x, x] = [x] := by
  unfold dedupe_keep_order
  rw [dedupeAux_cons_eq, if_neg (by simp), dedupeAux_cons_eq, if_pos (by simp)]
  rfl

/-- C1 counterexample: a URL whose normalized text is 1600 equal
characters yields two identical 800-character chunk lines; the final
output keeps only the first, so concatenating the chunks as they appear in
the final output does not reconstruct the normalized text. -/
theorem web_chunks_final_output_cex :
    clean_text (List.replicate 1600 'a') = List.replicate 1600 'a' ∧
    (webLinesFor ['u'] (List.replicate 1600 'a')).length = 2 ∧
    aggregate (build_lines_from_web ⟨['k'], [], fun _ => []⟩
        ⟨fun _ => some (List.replicate 1600 'a'), fun _ => none, fun _ => none⟩
        (fun h => h) [['u']])
      = [fmtWeb ['u'] (List.replicate 800 'a')] ∧
    joinAll ((aggregate (build_lines_from_web ⟨['k'], [], fun _ => []⟩
        ⟨fun _ => some (List.replicate 1600 'a'), fun _ => none, fun _ => none⟩
        (fun h => h) [['u']])).map fun l => l.drop (webPre ['u']).length)
      ≠ List.replicate 1600 'a' := by
  have hchars : ∀ n : Nat, ∀ c ∈ List.replicate n 'a', isPySpace c = false := by
    intro n c hc
    rw [List.eq_of_mem_replicate hc]
    decide
  have hne : ∀ n : Nat, 0 < n → (List.replicate n 'a' : Str) ≠ [] := by
    intro n hn h
    have h2 := congrArg List.length h
    simp at h2
    omega
  have hclean : clean_text (List.replicate 1600 'a') = List.replicate 1600 'a' := by
    rw [clean_text_eq_join,
      pySplit_single _ (hchars 1600) (hne 1600 (by omega)), joinWithSpace_singleton]
  have hchunks : chunks (List.replicate 1600 'a')
      = [List.replicate 800 'a', List.replicate 800 'a'] := by
    rw [chunks_step _ (hne 1600 (by omega)), take_replicate_le 'a' 800 1600 (by omega),
      drop_replicate_eq]
    norm_num
    rw [chunks_step _ (hne 800 (by omega)), take_replicate_le 'a' 800 800 (by omega),
      drop_replicate_eq]
    norm_num
    rfl
  have hweb : webLinesFor ['u'] (List.replicate 1600 'a')
      = [fmtWeb ['u'] (List.replicate 800 'a'), fmtWeb ['u'] (List.replicate 800 'a')] := by
    unfold webLinesFor
    rw [hclean, hchunks]
    rfl
  have hbuild : build_lines_from_web ⟨['k'], [], fun _ => []⟩
      ⟨fun _ => some (List.replicate 1600 'a'), fun _ => none, fun _ => none⟩
      (fun h => h) [['u']] = webLinesFor ['u'] (List.replicate 1600 'a') := by
    set_option maxRecDepth 40000 in rfl
  have hsplitL : pySplit (fmtWeb ['u'] (List.replicate 800 'a'))
      = [srcWebTag, ['u'], ['|'], List.replicate 800 'a'] := by
    rw [pySplit_fmtWeb,
      pySplit_single ['u'] (by decide) (by decide),
      pySplit_single _ (hchars 800) (hne 800 (by omega))]
    rfl
  have hcleanL : clean_text (fmtWeb ['u'] (List.replicate 800 'a'))
      = fmtWeb ['u'] (List.replicate 800 'a') := by
    rw [clean_text_eq_join, hsplitL]
    rfl
  have hstripL : pyStrip (fmtWeb ['u'] (List.replicate 800 'a'))
      = fmtWeb ['u'] (List.replicate 800 'a') := by
    conv_lhs => rw [← hcleanL]
    rw [pyStrip_clean_text, hcleanL]
  have hkeepL : keep_line (fmtWeb ['u'] (List.replicate 800 'a')) = true := by
    unfold keep_line
    rw [hstripL]
    rfl
  have hagg : aggregate (build_lines_from_web ⟨['k'], [], fun _ => []⟩
      ⟨fun _ => some (List.replicate 1600 'a'), fun _ => none, fun _ => none⟩
      (fun h => h) [['u']]) = [fmtWeb ['u'] (List.replicate 800 'a')] := by
    rw [hbuild, hweb]
    unfold aggregate
    rw [show List.filter keep_line [fmtWeb ['u'] (List.replicate 800 'a'),
        fmtWeb ['u'] (List.replicate 800 'a')]
      = [fmtWeb ['u'] (List.replicate 800 'a'), fmtWeb ['u'] (List.replicate 800 'a')] from
        List.filter_eq_self.mpr (by
          intro a ha
          rcases List.mem_cons.mp ha with rfl | ha2
          · exact hkeepL
          · rcases List.mem_cons.mp ha2 with rfl | ha3
            · exact hkeepL
            · exact absurd ha3 (List.not_mem_nil a))]
    rw [show List.map clean_text [fmtWeb ['u'] (List.replicate 800 'a'),
        fmtWeb ['u'] (List.replicate 800 'a')]
      = [fmtWeb ['u'] (List.replicate 800 'a'), fmtWeb ['u'] (List.replicate 800 'a')] from by
        rw [List.map_cons, List.map_cons, List.map_nil, hcleanL]]
    exact dedupe_pair _
  refine ⟨hclean, ?_, hagg, ?_⟩
  · rw [hweb]
    rfl
  · rw [hagg]
    show joinAll [(fmtWeb ['u'] (List.replicate 800 'a')).drop (webPre ['u']).length]
      ≠ List.replicate 1600 'a'
    rw [show (fmtWeb ['u'] (List.replicate 800 'a')).drop (webPre ['u']).length
      = List.replicate 800 'a' from List.drop_left (webPre ['u']) (List.replicate 800 'a')]
    show List.replicate 800 'a' ++ [] ≠ List.replicate 1600 'a'
    rw [List.append_nil]
    intro h
    have h2 := congrArg List.length h
    simp only [List.length_replicate] at h2
    omega

/-- C1 witness: for a concrete URL and text, the emitted chunk line is at
most 800 characters of chunk and reassembles to the normalized text. -/
theorem web_chunks_reconstruct_emission_witness :
    ((fmtWeb ['u'] ['h','i']).drop (webPre ['u']).length).length ≤ 800 ∧
    joinAll ((webLinesFor ['u'] ['h','i']).map fun l => l.drop (webPre ['u']).length)
      = clean_text ['h','i'] :=
  ⟨(web_chunks_reconstruct_emission ['u'] ['h','i']).1 (fmtWeb ['u'] ['h','i']) (by decide),
   (web_chunks_reconstruct_emission ['u'] ['h','i']).2⟩
